import Mathlib

/-!
Shallow embedding of the per-slice MRI dataset pipeline from
`dataset_tool_mri.py`, together with proofs about the specification claims.

2D arrays are modelled as total functions `ℕ → ℕ → α` carried alongside their
shape parameters, with the semantics that only indices below the shape are
meaningful (matching in-bounds numpy reads); 3D volumes likewise as
`ℕ → ℕ → ℕ → α`.  Float arithmetic is modelled by exact real arithmetic.
The per-slice random draws of `np.random.rand` are passed in explicitly as a
real-valued array whose entries lie in `[0, 1)`.
-/

open Finset

namespace MRI

/-- Output resolution constant from the source: `OUT_RESOLUTION = 256`. -/
def OUT_RESOLUTION : ℕ := 256

/-- Lower depth-slice bound from the source: `slice_min = 25`. -/
def slice_min : ℕ := 25

/-- Upper depth-slice bound from the source: `slice_max = 125`. -/
def slice_max : ℕ := 125

/-- Greatest element of a list of reals and a seed value, as a fold of `max`.
When the seed is itself one of the entries of an array and the list holds all
entries, this is the numpy maximum of the array. -/
noncomputable def listMax (l : List ℝ) (seed : ℝ) : ℝ := l.foldr max seed

/-- All entries of a 3D volume of shape `X × Y × D`, flattened to a list. -/
def volEntries (X Y D : ℕ) (v : ℕ → ℕ → ℕ → ℝ) : List ℝ :=
  (List.range X).flatMap fun x =>
    (List.range Y).flatMap fun y =>
      (List.range D).map fun d => v x y d

/-- Model of `np.max` over a 3D volume; the seed `v 0 0 0` is an entry of the
volume whenever all three axis lengths are positive. -/
noncomputable def volMax (X Y D : ℕ) (v : ℕ → ℕ → ℕ → ℝ) : ℝ :=
  listMax (volEntries X Y D v) (v 0 0 0)

/-- All entries of the `OUT_RESOLUTION × OUT_RESOLUTION` canvas, flattened. -/
def canvasEntries (f : ℕ → ℕ → ℝ) : List ℝ :=
  (List.range OUT_RESOLUTION).flatMap fun i =>
    (List.range OUT_RESOLUTION).map fun j => f i j

/-- Model of `np.max` over the canvas. -/
noncomputable def canvasMax (f : ℕ → ℕ → ℝ) : ℝ :=
  listMax (canvasEntries f) (f 0 0)

/-- Slice Normalizer, embedding `img = img / np.max(img)` from `genpng`. -/
noncomputable def normalize (X Y D : ℕ) (v : ℕ → ℕ → ℕ → ℝ) : ℕ → ℕ → ℕ → ℝ :=
  fun x y d => v x y d / volMax X Y D v

/-- Per-axis border, embedding
`hborder = (np.asarray([OUT_RESOLUTION, OUT_RESOLUTION]) - nii_img.shape[0:2]) // 2`;
for slice dimensions at most the output resolution this agrees with the Python
integer division. -/
def hborder (m : ℕ) : ℕ := (OUT_RESOLUTION - m) / 2

/-- Region overwrite, embedding the numpy slice assignment
`output[hborder[0] : hborder[0] + m, hborder[1] : hborder[1] + n] = slice`
on a given canvas. -/
def assignRegion (m n : ℕ) (canvas : ℕ → ℕ → ℝ) (sl : ℕ → ℕ → ℝ) : ℕ → ℕ → ℝ :=
  fun i j =>
    if hborder m ≤ i ∧ i < hborder m + m ∧ hborder n ≤ j ∧ j < hborder n + n then
      sl (i - hborder m) (j - hborder n)
    else canvas i j

/-- Canvas Compositor: the zero canvas `np.zeros([OUT_RESOLUTION, OUT_RESOLUTION])`
followed by the region assignment. -/
def composite (m n : ℕ) (sl : ℕ → ℕ → ℝ) : ℕ → ℕ → ℝ :=
  assignRegion m n (fun _ _ => 0) sl

/-- Range Clamper on one value, embedding the source lines
`output = np.minimum(output, 1.0)`, `output = np.maximum(output, 0.0)`,
`output = output * 255` in this order. -/
noncomputable def clampScale (x : ℝ) : ℝ := max (min x 1) 0 * 255

/-- Elementwise Range Clamper over a whole canvas. -/
noncomputable def clampScaleCanvas (c : ℕ → ℕ → ℝ) : ℕ → ℕ → ℝ :=
  fun i j => clampScale (c i j)

/-- Zero padding of a slice index to width 3, embedding the format `%03d`. -/
def pad3 (s : ℕ) : String :=
  let t := toString s
  String.mk (List.replicate (3 - t.length) '0') ++ t

/-- Forward numpy shift along both axes. Modelled from the numpy semantics of
`np.fft.fftshift`, which rolls every axis by `length // 2`: entry `(i, j)` of
the result is entry `((i - m/2) mod m, (j - n/2) mod n)` of the input, written
here with the additive complement so that ℕ subtraction never truncates. -/
def np_fftshift {α : Type} (m n : ℕ) (x : ℕ → ℕ → α) : ℕ → ℕ → α :=
  fun i j => x ((i + (m - m / 2)) % m) ((j + (n - n / 2)) % n)

/-- Inverse numpy shift along both axes. Modelled from the numpy semantics of
`np.fft.ifftshift`, which rolls every axis by `-(length // 2)`. -/
def np_ifftshift {α : Type} (m n : ℕ) (x : ℕ → ℕ → α) : ℕ → ℕ → α :=
  fun i j => x ((i + m / 2) % m) ((j + n / 2) % n)

/-- Hand-rolled shift from the source (`fftshift2d` without its assertion), in
the half-concatenation form `np.concatenate([x[s0:, :], x[:s0, :]])` followed
by the same on the second axis, with `s0 = shape // 2 + (0 if ifft else 1)`:
an in-range index `i` is sent to `i + s0` when that stays below the axis
length and wraps below otherwise. -/
def fftshift2dRaw {α : Type} (m n : ℕ) (ifft : Bool) (x : ℕ → ℕ → α) : ℕ → ℕ → α :=
  let s0 := m / 2 + (if ifft then 0 else 1)
  let s1 := n / 2 + (if ifft then 0 else 1)
  fun i j =>
    x (if i < m - s0 then i + s0 else i - (m - s0))
      (if j < n - s1 then j + s1 else j - (n - s1))

/-- Source `fftshift2d` including its assertion
`assert (len(x.shape) == 2) and all([(s % 2 == 1) for s in x.shape])`,
modelled by returning `none` exactly when the assertion fails. -/
def fftshift2d {α : Type} (m n : ℕ) (ifft : Bool) (x : ℕ → ℕ → α) :
    Option (ℕ → ℕ → α) :=
  if m % 2 = 1 ∧ n % 2 = 1 then some (fftshift2dRaw m n ifft x) else none

/-- Unit phase factor: the complex exponential of `2 π i` times the argument. -/
noncomputable def ec (t : ℂ) : ℂ := Complex.exp (2 * (Real.pi : ℂ) * Complex.I * t)

/-- Model of `np.fft.fft2` by its defining formula
`X[k, l] = sum over a < m and b < n of x[a, b] e(-(k a / m + l b / n))`. -/
noncomputable def np_fft2 (m n : ℕ) (x : ℕ → ℕ → ℂ) : ℕ → ℕ → ℂ :=
  fun k l => ∑ a : Fin m, ∑ b : Fin n,
    x a.1 b.1 * ec (-((k : ℂ) * a.1 / m + (l : ℂ) * b.1 / n))

/-- Model of `np.fft.ifft2` by its defining formula, with the `1 / (m n)`
normalisation. -/
noncomputable def np_ifft2 (m n : ℕ) (x : ℕ → ℕ → ℂ) : ℕ → ℕ → ℂ :=
  fun k l => (∑ a : Fin m, ∑ b : Fin n,
    x a.1 b.1 * ec ((k : ℂ) * a.1 / m + (l : ℂ) * b.1 / n)) / ((m : ℂ) * n)

/-- One-dimensional discrete Fourier transform, used to factor `np_fft2`. -/
noncomputable def dft1 (N : ℕ) (y : ℕ → ℂ) : ℕ → ℂ :=
  fun k => ∑ a : Fin N, y a.1 * ec (-((k : ℂ) * a.1 / N))

/-- One-dimensional inverse discrete Fourier transform. -/
noncomputable def idft1 (N : ℕ) (y : ℕ → ℂ) : ℕ → ℂ :=
  fun k => (∑ a : Fin N, y a.1 * ec ((k : ℂ) * a.1 / N)) / (N : ℂ)

/-- Spectral Masker, embedding `undersample_kspace`: 2D transform, numpy
forward shift, elementwise multiplication by the Bernoulli retention mask
`np.random.rand(*shape) < mask_fraction` (the draws are the explicit argument
`rand`), numpy inverse shift, inverse 2D transform, elementwise magnitude.
The source's default for `mask_fraction` is `0.5`. -/
noncomputable def undersample_kspace (m n : ℕ) (sl : ℕ → ℕ → ℝ)
    (rand : ℕ → ℕ → ℝ) (mask_fraction : ℝ) : ℕ → ℕ → ℝ :=
  let fft_slice := np_fftshift m n (np_fft2 m n fun a b => (sl a b : ℂ))
  let undersampled := fun i j =>
    if rand i j < mask_fraction then fft_slice i j else 0
  fun i j => Complex.abs (np_ifft2 m n (np_ifftshift m n undersampled) i j)

/-- Per-slice transform of `genpng`: extract the depth-`s` slice of the
normalized volume, optionally mask it (`mask_fraction` left at its default
`0.5`), composite it into the canvas, clamp and scale. -/
noncomputable def genpngSlice (X Y D : ℕ) (v : ℕ → ℕ → ℕ → ℝ) (und : Bool)
    (rand : ℕ → ℕ → ℕ → ℝ) (s : ℕ) : ℕ → ℕ → ℝ :=
  let img := normalize X Y D v
  let sl : ℕ → ℕ → ℝ := fun x y => img x y s
  let sl2 := if und then undersample_kspace X Y sl (rand s) (1 / 2) else sl
  clampScaleCanvas (composite X Y sl2)

/-- Output list of `genpng` for one volume: for each depth index in
`range(slice_min, slice_max)`, the named raster is emitted exactly when
`np.max(output) > 1.0`. -/
noncomputable def genpngOutputs (X Y D : ℕ) (v : ℕ → ℕ → ℕ → ℝ) (und : Bool)
    (rand : ℕ → ℕ → ℕ → ℝ) (stem : String) : List (String × (ℕ → ℕ → ℝ)) :=
  (List.range' slice_min (slice_max - slice_min)).filterMap fun s =>
    if 1 < canvasMax (genpngSlice X Y D v und rand s) then
      some (stem ++ "_" ++ pad3 s ++ ".png", genpngSlice X Y D v und rand s)
    else none

/-- Volume with a negative entry, used against claim C6: shape `1 × 1 × 2`,
entries `-1` at depth `0` and `1` at depth `1`. -/
noncomputable def vneg : ℕ → ℕ → ℕ → ℝ := fun _ _ d => if d = 0 then -1 else 1

/-! Helper lemmas about the list-based maximum. -/

/-- Every member of the list is bounded by the fold of `max`. -/
theorem le_listMax (l : List ℝ) (seed x : ℝ) (hx : x ∈ l) : x ≤ listMax l seed := by
  induction l with
  | nil => cases hx
  | cons h t ih =>
    rcases List.mem_cons.mp hx with rfl | hx
    · exact le_max_left _ _
    · exact le_trans (ih hx) (le_max_right _ _)

/-- In-range entries of a volume appear in its flattened entry list. -/
theorem mem_volEntries (X Y D : ℕ) (v : ℕ → ℕ → ℕ → ℝ) (x y d : ℕ)
    (hx : x < X) (hy : y < Y) (hd : d < D) : v x y d ∈ volEntries X Y D v := by
  unfold volEntries
  simp only [List.mem_flatMap, List.mem_map, List.mem_range]
  exact ⟨x, hx, y, hy, d, hd, rfl⟩

/-- C4: for a slice whose dimensions are at most the output resolution, the
Canvas Compositor computes the per-axis border `(OUT_RESOLUTION - dim) / 2`,
writes the slice exactly into the sub-region of that offset, and every canvas
element outside the sub-region is exactly zero. -/
theorem canvasCompositor_centers (m n : ℕ) (sl : ℕ → ℕ → ℝ)
    (hm : m ≤ OUT_RESOLUTION) (hn : n ≤ OUT_RESOLUTION)
    (a b i j : ℕ) (ha : a < m) (hb : b < n)
    (hi : i < OUT_RESOLUTION) (hj : j < OUT_RESOLUTION)
    (hout : i < hborder m ∨ hborder m + m ≤ i ∨ j < hborder n ∨ hborder n + n ≤ j) :
    hborder m = (OUT_RESOLUTION - m) / 2 ∧
    composite m n sl (hborder m + a) (hborder n + b) = sl a b ∧
    composite m n sl i j = 0 := by
  refine ⟨rfl, ?_, ?_⟩
  · unfold composite assignRegion
    rw [if_pos (by omega)]
    have h1 : hborder m + a - hborder m = a := by omega
    have h2 : hborder n + b - hborder n = b := by omega
    rw [h1, h2]
  · unfold composite assignRegion
    rw [if_neg (by omega)]

/-- Witness for C4 at slice shape `(101, 101)`: the border is `77` on each
axis, a centred canvas entry carries the slice value, and the corner of the
canvas is zero. -/
theorem canvasCompositor_centers_witness :
    hborder 101 = 77 ∧
    composite 101 101 (fun _ _ => (3 : ℝ)) (hborder 101 + 5) (hborder 101 + 7) = 3 ∧
    composite 101 101 (fun _ _ => (3 : ℝ)) 0 0 = 0 := by
  have h := canvasCompositor_centers 101 101 (fun _ _ => (3 : ℝ))
    (by decide) (by decide) 5 7 0 0 (by decide) (by decide)
    (by decide) (by decide) (Or.inl (by decide))
  exact ⟨by decide, h.2.1, h.2.2⟩

/-- C5: the Range Clamper computes elementwise `clip(value, 0, 1) * 255` on
every canvas; the input `1.5` maps to `255` and the input `-0.2` maps to `0`.
(The embedding is a pure function, so determinism and absence of side effects
hold by construction.) -/
theorem rangeClamper_clip_scale :
    (∀ (c : ℕ → ℕ → ℝ) (i j : ℕ),
      clampScaleCanvas c i j = min (max (c i j) 0) 1 * 255) ∧
    clampScale 1.5 = 255 ∧ clampScale (-0.2) = 0 := by
  refine ⟨fun c i j => ?_, ?_, ?_⟩
  · unfold clampScaleCanvas clampScale
    rw [max_min_distrib_right, max_eq_left zero_le_one]
  · unfold clampScale
    norm_num
  · unfold clampScale
    norm_num

/-- Counterexample to C6 as stated: on the `1 × 1 × 2` volume with entries
`-1` and `1`, dividing by the global maximum leaves the first normalised value
at `-1`, which does not lie in `[0, 1]`. -/
theorem normalize_escapes_unit_interval : normalize 1 1 2 vneg 0 0 0 < 0 := by
  have hmax : volMax 1 1 2 vneg = 1 := by
    show listMax (volEntries 1 1 2 vneg) (vneg 0 0 0) = 1
    have he : volEntries 1 1 2 vneg = [vneg 0 0 0, vneg 0 0 1] := rfl
    rw [he]
    show max (vneg 0 0 0) (max (vneg 0 0 1) (vneg 0 0 0)) = 1
    norm_num [vneg]
  unfold normalize
  rw [hmax]
  norm_num [vneg]

/-- C6 amended: the Slice Normalizer divides every element by the volume's
global maximum; when the volume additionally has nonnegative entries and a
positive global maximum, every normalised in-range intensity lies in `[0, 1]`. -/
theorem normalize_div_global_max (X Y D : ℕ) (v : ℕ → ℕ → ℕ → ℝ)
    (hnn : ∀ x y d, x < X → y < Y → d < D → 0 ≤ v x y d)
    (hpos : 0 < volMax X Y D v)
    (x y d : ℕ) (hx : x < X) (hy : y < Y) (hd : d < D) :
    normalize X Y D v x y d = v x y d / volMax X Y D v ∧
    0 ≤ normalize X Y D v x y d ∧ normalize X Y D v x y d ≤ 1 := by
  refine ⟨rfl, div_nonneg (hnn x y d hx hy hd) hpos.le, ?_⟩
  unfold normalize
  rw [div_le_one hpos]
  exact le_listMax _ _ _ (mem_volEntries X Y D v x y d hx hy hd)

/-- Witness for the amended C6 on a constant `1 × 1 × 1` volume of value `2`. -/
theorem normalize_div_global_max_witness :
    normalize 1 1 1 (fun _ _ _ => 2) 0 0 0 = 2 / volMax 1 1 1 (fun _ _ _ => 2) ∧
    0 ≤ normalize 1 1 1 (fun _ _ _ => 2) 0 0 0 ∧
    normalize 1 1 1 (fun _ _ _ => 2) 0 0 0 ≤ 1 := by
  have hpos : (0 : ℝ) < volMax 1 1 1 (fun _ _ _ => 2) := by
    show (0 : ℝ) < listMax (volEntries 1 1 1 fun _ _ _ => 2) 2
    have he : volEntries 1 1 1 (fun _ _ _ => (2 : ℝ)) = [2] := rfl
    rw [he]
    show (0 : ℝ) < max 2 2
    norm_num
  exact normalize_div_global_max 1 1 1 (fun _ _ _ => 2)
    (fun _ _ _ _ _ _ => by norm_num) hpos 0 0 0 (by decide) (by decide) (by decide)

/-! Index arithmetic for the shifts. -/

/-- Reduction of one modulus step: for `a < 2 m`, `a % m` subtracts `m` at
most once. -/
theorem mod_two_cases (a m : ℕ) (h : a < 2 * m) :
    a % m = if a < m then a else a - m := by
  split_ifs with h1
  · exact Nat.mod_eq_of_lt h1
  · rw [Nat.mod_eq_sub_mod (le_of_not_lt h1), Nat.mod_eq_of_lt (by omega)]

/-- Rolling an in-range index forward by `m / 2` and back cancels. -/
theorem roll_cancel (m i : ℕ) (hi : i < m) :
    ((i + m / 2) % m + (m - m / 2)) % m = i := by
  rw [Nat.mod_add_mod]
  have h : i + m / 2 + (m - m / 2) = i + m := by omega
  rw [h, Nat.add_mod_right, Nat.mod_eq_of_lt hi]

/-- The row map of the forward hand-rolled shift agrees with the forward
numpy roll on an odd axis. -/
theorem fwd_index_eq (m i : ℕ) (hm : Odd m) (hi : i < m) :
    (if i < m - (m / 2 + 1) then i + (m / 2 + 1) else i - (m - (m / 2 + 1)))
      = (i + (m - m / 2)) % m := by
  obtain ⟨k, rfl⟩ := hm
  rw [mod_two_cases _ _ (by omega)]
  split_ifs <;> omega

/-- The row map of the inverse hand-rolled shift agrees with the inverse
numpy roll on any positive axis. -/
theorem inv_index_eq (m i : ℕ) (hi : i < m) :
    (if i < m - m / 2 then i + m / 2 else i - (m - m / 2)) = (i + m / 2) % m := by
  rw [mod_two_cases _ _ (by omega)]
  split_ifs <;> omega

/-- The inverse hand-rolled row map undoes the forward one on an odd axis. -/
theorem raw_roundtrip_index (m i : ℕ) (hm : Odd m) (hi : i < m) :
    (if (if i < m - m / 2 then i + m / 2 else i - (m - m / 2)) < m - (m / 2 + 1)
      then (if i < m - m / 2 then i + m / 2 else i - (m - m / 2)) + (m / 2 + 1)
      else (if i < m - m / 2 then i + m / 2 else i - (m - m / 2)) - (m - (m / 2 + 1)))
      = i := by
  obtain ⟨k, rfl⟩ := hm
  split_ifs <;> omega

/-- C3: on an odd-by-odd array the source assertion passes, the forward
hand-rolled shift (split at `length / 2 + 1`) computes the same entries as
`np.fft.fftshift`, and the inverse hand-rolled shift (split at `length / 2`)
computes the same entries as `np.fft.ifftshift`. -/
theorem np_shift_refines_fftshift2d {α : Type} (m n : ℕ) (x : ℕ → ℕ → α)
    (hm : Odd m) (hn : Odd n) (i j : ℕ) (hi : i < m) (hj : j < n) :
    fftshift2d m n false x = some (fftshift2dRaw m n false x) ∧
    fftshift2dRaw m n false x i j = np_fftshift m n x i j ∧
    fftshift2dRaw m n true x i j = np_ifftshift m n x i j := by
  refine ⟨?_, ?_, ?_⟩
  · unfold fftshift2d
    rw [if_pos ⟨Nat.odd_iff.mp hm, Nat.odd_iff.mp hn⟩]
  · show x (if i < m - (m / 2 + 1) then i + (m / 2 + 1) else i - (m - (m / 2 + 1)))
        (if j < n - (n / 2 + 1) then j + (n / 2 + 1) else j - (n - (n / 2 + 1)))
      = x ((i + (m - m / 2)) % m) ((j + (n - n / 2)) % n)
    rw [fwd_index_eq m i hm hi, fwd_index_eq n j hn hj]
  · show x (if i < m - (m / 2 + 0) then i + (m / 2 + 0) else i - (m - (m / 2 + 0)))
        (if j < n - (n / 2 + 0) then j + (n / 2 + 0) else j - (n - (n / 2 + 0)))
      = x ((i + m / 2) % m) ((j + n / 2) % n)
    simp only [Nat.add_zero]
    rw [inv_index_eq m i hi, inv_index_eq n j hj]

/-- Witness for C3 on a concrete odd-by-odd array of shape `5 × 3`. -/
theorem np_shift_refines_fftshift2d_witness :
    fftshift2d 5 3 false (fun i j => i + j) = some (fftshift2dRaw 5 3 false fun i j => i + j) ∧
    fftshift2dRaw 5 3 false (fun i j => i + j) 1 2 = np_fftshift 5 3 (fun i j => i + j) 1 2 ∧
    fftshift2dRaw 5 3 true (fun i j => i + j) 1 2 = np_ifftshift 5 3 (fun i j => i + j) 1 2 :=
  np_shift_refines_fftshift2d 5 3 (fun i j => i + j) ⟨2, rfl⟩ ⟨1, rfl⟩ 1 2
    (by decide) (by decide)

/-- C9: on an odd-by-odd array, the source shift with `ifft = False` followed
by the shift with `ifft = True` succeeds and returns the original entries. -/
theorem fftshift2d_roundtrip {α : Type} (m n : ℕ) (x : ℕ → ℕ → α)
    (hm : Odd m) (hn : Odd n) (i j : ℕ) (hi : i < m) (hj : j < n) :
    (fftshift2d m n false x).bind (fftshift2d m n true)
      = some (fftshift2dRaw m n true (fftshift2dRaw m n false x)) ∧
    fftshift2dRaw m n true (fftshift2dRaw m n false x) i j = x i j := by
  constructor
  · unfold fftshift2d
    rw [if_pos ⟨Nat.odd_iff.mp hm, Nat.odd_iff.mp hn⟩, Option.some_bind,
      if_pos ⟨Nat.odd_iff.mp hm, Nat.odd_iff.mp hn⟩]
  · show x
        (if (if i < m - (m / 2 + 0) then i + (m / 2 + 0) else i - (m - (m / 2 + 0)))
            < m - (m / 2 + 1)
          then (if i < m - (m / 2 + 0) then i + (m / 2 + 0) else i - (m - (m / 2 + 0)))
            + (m / 2 + 1)
          else (if i < m - (m / 2 + 0) then i + (m / 2 + 0) else i - (m - (m / 2 + 0)))
            - (m - (m / 2 + 1)))
        (if (if j < n - (n / 2 + 0) then j + (n / 2 + 0) else j - (n - (n / 2 + 0)))
            < n - (n / 2 + 1)
          then (if j < n - (n / 2 + 0) then j + (n / 2 + 0) else j - (n - (n / 2 + 0)))
            + (n / 2 + 1)
          else (if j < n - (n / 2 + 0) then j + (n / 2 + 0) else j - (n - (n / 2 + 0)))
            - (n - (n / 2 + 1)))
      = x i j
    simp only [Nat.add_zero]
    rw [raw_roundtrip_index m i hm hi, raw_roundtrip_index n j hn hj]

/-- Witness for C9 on a concrete odd-by-odd array of shape `5 × 3`. -/
theorem fftshift2d_roundtrip_witness :
    (fftshift2d 5 3 false (fun i j => 10 * i + j)).bind (fftshift2d 5 3 true)
      = some (fftshift2dRaw 5 3 true (fftshift2dRaw 5 3 false fun i j => 10 * i + j)) ∧
    fftshift2dRaw 5 3 true (fftshift2dRaw 5 3 false fun i j => 10 * i + j) 4 1 = 10 * 4 + 1 :=
  fftshift2d_roundtrip 5 3 (fun i j => 10 * i + j) ⟨2, rfl⟩ ⟨1, rfl⟩ 4 1
    (by decide) (by decide)

/-! Discrete Fourier analysis for the Spectral Masker. -/

/-- Phase factors multiply under addition of arguments. -/
theorem ec_add (s t : ℂ) : ec (s + t) = ec s * ec t := by
  unfold ec
  rw [mul_add, Complex.exp_add]

/-- Phase factor of zero. -/
theorem ec_zero : ec 0 = 1 := by
  unfold ec
  rw [mul_zero, Complex.exp_zero]

/-- Natural powers of a phase factor. -/
theorem ec_nat_mul (a : ℕ) (t : ℂ) : ec ((a : ℂ) * t) = ec t ^ a := by
  unfold ec
  rw [show 2 * (Real.pi : ℂ) * Complex.I * ((a : ℂ) * t)
      = (a : ℂ) * (2 * (Real.pi : ℂ) * Complex.I * t) by ring, Complex.exp_nat_mul]

/-- Phase factors at integer arguments are trivial. -/
theorem ec_int (d : ℤ) : ec (d : ℂ) = 1 := by
  unfold ec
  rw [show 2 * (Real.pi : ℂ) * Complex.I * (d : ℂ)
      = (d : ℂ) * (2 * (Real.pi : ℂ) * Complex.I) by ring]
  exact Complex.exp_int_mul_two_pi_mul_I d

/-- Character orthogonality: the geometric sum of phase factors along one
axis vanishes off the diagonal and counts the axis length on it. -/
theorem ec_orthogonality (N k c : ℕ) (hk : k < N) (hc : c < N) :
    ∑ a : Fin N, ec (((k : ℂ) - c) * a.1 / N) = if k = c then (N : ℂ) else 0 := by
  have hNC : (N : ℂ) ≠ 0 := Nat.cast_ne_zero.mpr (by omega)
  by_cases h : k = c
  · subst h
    rw [if_pos rfl]
    have hone : ∀ a : Fin N, ec (((k : ℂ) - k) * a.1 / N) = 1 := by
      intro a
      rw [sub_self, zero_mul, zero_div, ec_zero]
    rw [Finset.sum_congr rfl fun a _ => hone a]
    simp
  · rw [if_neg h]
    set w : ℂ := ec (((k : ℂ) - c) / N) with hw
    have hterm : ∀ a : Fin N, ec (((k : ℂ) - c) * a.1 / N) = w ^ a.1 := by
      intro a
      rw [hw, ← ec_nat_mul]
      congr 1
      ring
    rw [Finset.sum_congr rfl fun a _ => hterm a,
      Fin.sum_univ_eq_sum_range (fun i => w ^ i) N]
    have hw1 : w ≠ 1 := by
      intro hcon
      rw [hw] at hcon
      unfold ec at hcon
      obtain ⟨z, hz⟩ := Complex.exp_eq_one_iff.mp hcon
      have hzz : ((k : ℂ) - c) / N = (z : ℂ) :=
        mul_left_cancel₀ Complex.two_pi_I_ne_zero (by rw [hz]; ring)
      have hkc : (k : ℂ) - c = (z : ℂ) * N := (div_eq_iff hNC).mp hzz
      have hint : (k : ℤ) - c = z * N := by exact_mod_cast hkc
      rcases lt_trichotomy z 0 with hz0 | hz0 | hz0
      · have hb : z * (N : ℤ) ≤ -1 * N :=
          mul_le_mul_of_nonneg_right (by omega) (by positivity)
        omega
      · subst hz0
        rw [zero_mul] at hint
        exact h (by omega)
      · have hb : 1 * (N : ℤ) ≤ z * N :=
          mul_le_mul_of_nonneg_right (by omega) (by positivity)
        omega
    rw [geom_sum_eq hw1 N]
    have hwN : w ^ N = 1 := by
      rw [hw, ← ec_nat_mul,
        show (N : ℂ) * (((k : ℂ) - c) / N) = (k : ℂ) - c by field_simp,
        show (k : ℂ) - c = (((k : ℤ) - c : ℤ) : ℂ) by push_cast; ring]
      exact ec_int _
    rw [hwN, sub_self, zero_div]

/-- One-dimensional Fourier inversion for the model transforms. -/
theorem idft1_dft1 (N : ℕ) (y : ℕ → ℂ) (k : ℕ) (hk : k < N) :
    idft1 N (dft1 N y) k = y k := by
  have hNC : (N : ℂ) ≠ 0 := Nat.cast_ne_zero.mpr (by omega)
  unfold idft1 dft1
  have hstep : ∀ a : Fin N,
      (∑ c : Fin N, y c.1 * ec (-((a.1 : ℂ) * c.1 / N))) * ec ((k : ℂ) * a.1 / N)
        = ∑ c : Fin N, y c.1 * ec (((k : ℂ) - c.1) * a.1 / N) := by
    intro a
    rw [Finset.sum_mul]
    refine Finset.sum_congr rfl fun c _ => ?_
    rw [mul_assoc, ← ec_add]
    congr 2
    ring
  rw [Finset.sum_congr rfl fun a _ => hstep a, Finset.sum_comm]
  have hinner : ∀ c : Fin N,
      ∑ a : Fin N, y c.1 * ec (((k : ℂ) - c.1) * a.1 / N)
        = y c.1 * (if k = c.1 then (N : ℂ) else 0) := by
    intro c
    rw [← Finset.mul_sum, ec_orthogonality N k c.1 hk c.2]
  rw [Finset.sum_congr rfl fun c _ => hinner c]
  have hsum : (∑ c : Fin N, y c.1 * (if k = c.1 then (N : ℂ) else 0)) = y k * N := by
    rw [Finset.sum_eq_single (⟨k, hk⟩ : Fin N)]
    · rw [if_pos rfl]
    · intro b _ hb
      rw [if_neg fun hkb => hb (Fin.ext hkb.symm), mul_zero]
    · intro hnot
      exact absurd (Finset.mem_univ _) hnot
  rw [hsum, mul_div_cancel_right₀ _ hNC]

/-- The inverse 1D transform of a weighted finite family of signals is the
weighted family of the inverse transforms. -/
theorem idft1_sum_dft (n m : ℕ) (g : ℕ → ℕ → ℂ) (w : ℕ → ℂ) (l : ℕ) :
    idft1 n (fun b => ∑ c : Fin m, g c.1 b * w c.1) l
      = ∑ c : Fin m, idft1 n (g c.1) l * w c.1 := by
  unfold idft1
  have hpull : ∀ c : Fin m,
      (∑ a : Fin n, g c.1 a.1 * ec ((l : ℂ) * a.1 / n)) / (n : ℂ) * w c.1
        = (∑ a : Fin n, g c.1 a.1 * w c.1 * ec ((l : ℂ) * a.1 / n)) / (n : ℂ) := by
    intro c
    rw [div_mul_eq_mul_div, Finset.sum_mul]
    congr 1
    refine Finset.sum_congr rfl fun a _ => ?_
    ring
  rw [Finset.sum_congr rfl fun c _ => hpull c, ← Finset.sum_div]
  congr 1
  calc ∑ a : Fin n, (∑ c : Fin m, g c.1 a.1 * w c.1) * ec ((l : ℂ) * a.1 / n)
      = ∑ a : Fin n, ∑ c : Fin m, g c.1 a.1 * w c.1 * ec ((l : ℂ) * a.1 / n) := by
        refine Finset.sum_congr rfl fun a _ => ?_
        rw [Finset.sum_mul]
    _ = ∑ c : Fin m, ∑ a : Fin n, g c.1 a.1 * w c.1 * ec ((l : ℂ) * a.1 / n) :=
        Finset.sum_comm

/-- The 2D transform factors into nested 1D transforms. -/
theorem np_fft2_nested (m n : ℕ) (x : ℕ → ℕ → ℂ) (k l : ℕ) :
    np_fft2 m n x k l = dft1 m (fun c => dft1 n (x c) l) k := by
  unfold np_fft2 dft1
  refine Finset.sum_congr rfl fun a _ => ?_
  rw [Finset.sum_mul]
  refine Finset.sum_congr rfl fun b _ => ?_
  rw [show -((k : ℂ) * a.1 / m + (l : ℂ) * b.1 / n)
      = -((l : ℂ) * b.1 / n) + -((k : ℂ) * a.1 / m) by ring, ec_add, ← mul_assoc]

/-- The inverse 2D transform factors into nested inverse 1D transforms. -/
theorem np_ifft2_nested (m n : ℕ) (x : ℕ → ℕ → ℂ) (k l : ℕ) :
    np_ifft2 m n x k l = idft1 m (fun a => idft1 n (x a) l) k := by
  unfold np_ifft2 idft1
  have hterm : ∀ a : Fin m,
      (∑ b : Fin n, x a.1 b.1 * ec ((l : ℂ) * b.1 / n)) / (n : ℂ) * ec ((k : ℂ) * a.1 / m)
        = (∑ b : Fin n, x a.1 b.1 * ec ((k : ℂ) * a.1 / m + (l : ℂ) * b.1 / n)) / (n : ℂ) := by
    intro a
    rw [div_mul_eq_mul_div, Finset.sum_mul]
    congr 1
    refine Finset.sum_congr rfl fun b _ => ?_
    rw [show (k : ℂ) * a.1 / m + (l : ℂ) * b.1 / n
        = (l : ℂ) * b.1 / n + (k : ℂ) * a.1 / m by ring, ec_add, ← mul_assoc]
  rw [Finset.sum_congr rfl fun a _ => hterm a, ← Finset.sum_div, div_div,
    mul_comm (n : ℂ) (m : ℂ)]

/-- Two-dimensional Fourier inversion for the model transforms, on in-range
indices. -/
theorem np_ifft2_np_fft2 (m n : ℕ) (x : ℕ → ℕ → ℂ) (k l : ℕ)
    (hk : k < m) (hl : l < n) :
    np_ifft2 m n (np_fft2 m n x) k l = x k l := by
  rw [np_ifft2_nested]
  have h1 : ∀ a : ℕ, idft1 n (np_fft2 m n x a) l = dft1 m (fun c => x c l) a := by
    intro a
    have hx : np_fft2 m n x a
        = fun b => ∑ c : Fin m, dft1 n (x c.1) b * ec (-((a : ℂ) * c.1 / m)) :=
      funext fun b => np_fft2_nested m n x a b
    have hrw : ∀ y : ℕ → ℂ, idft1 n (dft1 n y) l = y l := fun y => idft1_dft1 n y l hl
    rw [hx, idft1_sum_dft n m (fun c => dft1 n (x c)) (fun c => ec (-((a : ℂ) * c / m))) l]
    simp only [hrw]
    rfl
  have h2 : (fun a => idft1 n (np_fft2 m n x a) l) = fun a => dft1 m (fun c => x c l) a :=
    funext h1
  rw [h2]
  exact idft1_dft1 m (fun c => x c l) k hk

/-! The Spectral Masker. -/

/-- The inverse transform only reads in-range entries of its input. -/
theorem np_ifft2_congr (m n : ℕ) (U V : ℕ → ℕ → ℂ)
    (h : ∀ a b, a < m → b < n → U a b = V a b) (k l : ℕ) :
    np_ifft2 m n U k l = np_ifft2 m n V k l := by
  unfold np_ifft2
  congr 1
  refine Finset.sum_congr rfl fun a _ => Finset.sum_congr rfl fun b _ => ?_
  rw [h a.1 b.1 a.2 b.2]

/-- Shift cancellation: the inverse numpy shift undoes the forward numpy
shift on in-range indices. -/
theorem np_ifftshift_np_fftshift {α : Type} (m n : ℕ) (x : ℕ → ℕ → α)
    (i j : ℕ) (hi : i < m) (hj : j < n) :
    np_ifftshift m n (np_fftshift m n x) i j = x i j := by
  unfold np_ifftshift np_fftshift
  rw [roll_cancel m i hi, roll_cancel n j hj]

/-- When every in-range draw is at least the mask fraction, every retention
mask cell is false and the Spectral Masker returns the all-zero array. -/
theorem undersample_maskout (m n : ℕ) (sl rand : ℕ → ℕ → ℝ) (frac : ℝ)
    (hr : ∀ i j, i < m → j < n → frac ≤ rand i j) (k l : ℕ) :
    undersample_kspace m n sl rand frac k l = 0 := by
  simp only [undersample_kspace]
  have hz : ∀ a : Fin m, ∀ b : Fin n,
      np_ifftshift m n (fun i j =>
          if rand i j < frac
            then np_fftshift m n (np_fft2 m n fun a b => (sl a b : ℂ)) i j
            else 0) a.1 b.1
        * ec ((k : ℂ) * a.1 / m + (l : ℂ) * b.1 / n) = 0 := by
    intro a b
    unfold np_ifftshift
    beta_reduce
    rw [if_neg (not_lt.mpr (hr _ _ (Nat.mod_lt _ a.pos) (Nat.mod_lt _ b.pos))),
      zero_mul]
  rw [show np_ifft2 m n (np_ifftshift m n fun i j =>
      if rand i j < frac
        then np_fftshift m n (np_fft2 m n fun a b => (sl a b : ℂ)) i j
        else 0) k l = 0 from by
    unfold np_ifft2
    rw [Finset.sum_eq_zero fun a _ => Finset.sum_eq_zero fun b _ => hz a b, zero_div]]
  exact map_zero Complex.abs

/-- C8: with keep-fraction `0.0` the Spectral Masker output is exactly the
all-zero array, for every slice and all (nonnegative) random draws. -/
theorem undersample_keep_none (m n : ℕ) (sl rand : ℕ → ℕ → ℝ)
    (hr : ∀ i j, i < m → j < n → 0 ≤ rand i j) (k l : ℕ) :
    undersample_kspace m n sl rand 0 k l = 0 :=
  undersample_maskout m n sl rand 0 hr k l

/-- Witness for C8 on a concrete `1 × 1` slice with draw `0`. -/
theorem undersample_keep_none_witness :
    undersample_kspace 1 1 (fun _ _ => 1) (fun _ _ => 0) 0 0 0 = 0 :=
  undersample_keep_none 1 1 (fun _ _ => 1) (fun _ _ => 0) (fun _ _ _ _ => le_refl 0) 0 0

/-- Counterexample to C1 as stated: on a `2 × 2` slice (both axis lengths
even) the Spectral Masker does not fail: it returns a result, here the
all-zero array because every draw (`1`) is at least the mask fraction `0.5`. -/
theorem undersample_even_dims_return :
    undersample_kspace 2 2 (fun _ _ => 1) (fun _ _ => 1) (1 / 2) 0 0 = 0 ∧
    undersample_kspace 2 2 (fun _ _ => 1) (fun _ _ => 1) (1 / 2) 1 1 = 0 :=
  ⟨undersample_maskout 2 2 (fun _ _ => 1) (fun _ _ => 1) (1 / 2)
      (fun _ _ _ _ => one_half_lt_one.le) 0 0,
    undersample_maskout 2 2 (fun _ _ => 1) (fun _ _ => 1) (1 / 2)
      (fun _ _ _ _ => one_half_lt_one.le) 1 1⟩

/-- C1 amended: when either axis length is even, the odd-dimension assertion
lives only in the helper `fftshift2d`, which fails; `undersample_kspace` is
not built on it, performs no shape check, and returns a result (with every
draw at least the mask fraction, the all-zero array). -/
theorem spectral_masker_unchecked (m n : ℕ) (hev : Even m ∨ Even n) :
    (∀ (x : ℕ → ℕ → ℂ) (b : Bool), fftshift2d m n b x = none) ∧
    (∀ (sl rand : ℕ → ℕ → ℝ) (frac : ℝ),
      (∀ i j, i < m → j < n → frac ≤ rand i j) →
      ∀ k l, undersample_kspace m n sl rand frac k l = 0) := by
  constructor
  · intro x b
    unfold fftshift2d
    have hno : ¬(m % 2 = 1 ∧ n % 2 = 1) := by
      rcases hev with h | h
      · have h2 := Nat.even_iff.mp h
        omega
      · have h2 := Nat.even_iff.mp h
        omega
    rw [if_neg hno]
  · intro sl rand frac hr k l
    exact undersample_maskout m n sl rand frac hr k l

/-- Witness for the amended C1 at shape `2 × 3`. -/
theorem spectral_masker_unchecked_witness :
    fftshift2d 2 3 false (fun _ _ => (0 : ℂ)) = none ∧
    undersample_kspace 2 3 (fun _ _ => 1) (fun _ _ => 1) (1 / 2) 0 0 = 0 := by
  have h := spectral_masker_unchecked 2 3 (Or.inl ⟨1, rfl⟩)
  exact ⟨h.1 (fun _ _ => 0) false, h.2 (fun _ _ => 1) (fun _ _ => 1) (1 / 2)
    (fun _ _ _ _ => one_half_lt_one.le) 0 0⟩

/-- C7: on an odd-by-odd real slice with keep-fraction `1.0`, every mask cell
is retained regardless of the draws (all of which are below `1`), and the
Spectral Masker returns exactly the elementwise magnitude of the slice. -/
theorem undersample_keep_all (m n : ℕ) (hm : Odd m) (hn : Odd n)
    (sl rand : ℕ → ℕ → ℝ)
    (hr : ∀ i j, i < m → j < n → rand i j < 1)
    (k l : ℕ) (hk : k < m) (hl : l < n) :
    undersample_kspace m n sl rand 1 k l = |sl k l| := by
  simp only [undersample_kspace]
  set F := np_fft2 m n (fun a b => (sl a b : ℂ)) with hF
  have hU : ∀ a b : ℕ, a < m → b < n →
      np_ifftshift m n (fun i j => if rand i j < 1 then np_fftshift m n F i j else 0) a b
        = F a b := by
    intro a b ha hb
    unfold np_ifftshift
    beta_reduce
    rw [if_pos (hr _ _ (Nat.mod_lt _ (by omega)) (Nat.mod_lt _ (by omega)))]
    unfold np_fftshift
    rw [roll_cancel m a ha, roll_cancel n b hb]
  rw [np_ifft2_congr m n _ F hU k l, hF, np_ifft2_np_fft2 m n _ k l hk hl]
  exact Complex.abs_ofReal _

/-- Witness for C7 on a concrete `1 × 1` slice of value `2` with draw `0`. -/
theorem undersample_keep_all_witness :
    undersample_kspace 1 1 (fun _ _ => 2) (fun _ _ => 0) 1 0 0 = |(2 : ℝ)| :=
  undersample_keep_all 1 1 ⟨0, rfl⟩ ⟨0, rfl⟩ (fun _ _ => 2) (fun _ _ => 0)
    (fun _ _ _ _ => zero_lt_one) 0 0 Nat.one_pos Nat.one_pos

/-! The genpng orchestration. -/

/-- C2: for a volume deep enough for the depth window, an entry is in the
per-volume output list exactly when its depth index lies in
`[slice_min, slice_max)` and the post-scale canvas maximum exceeds `1.0`;
its name is then the volume stem, an underscore, the 3-digit zero-padded
index and the raster extension. Slices failing the guard produce nothing. -/
theorem genpng_written_iff (X Y D : ℕ) (v : ℕ → ℕ → ℕ → ℝ) (und : Bool)
    (rand : ℕ → ℕ → ℕ → ℝ) (stem : String) (hD : slice_max ≤ D)
    (p : String × (ℕ → ℕ → ℝ)) :
    p ∈ genpngOutputs X Y D v und rand stem ↔
      ∃ s, slice_min ≤ s ∧ s < slice_max ∧
        1 < canvasMax (genpngSlice X Y D v und rand s) ∧
        p = (stem ++ "_" ++ pad3 s ++ ".png", genpngSlice X Y D v und rand s) := by
  have hrange : slice_min + (slice_max - slice_min) = slice_max := rfl
  unfold genpngOutputs
  rw [List.mem_filterMap]
  constructor
  · rintro ⟨s, hs, hf⟩
    rw [List.mem_range'_1] at hs
    by_cases h : 1 < canvasMax (genpngSlice X Y D v und rand s)
    · rw [if_pos h] at hf
      exact ⟨s, hs.1, by omega, h, (Option.some_inj.mp hf).symm⟩
    · rw [if_neg h] at hf
      simp at hf
  · rintro ⟨s, h1, h2, h3, rfl⟩
    refine ⟨s, ?_, ?_⟩
    · rw [List.mem_range'_1]
      exact ⟨h1, by omega⟩
    · rw [if_pos h3]

/-- Witness for C2 on a concrete constant volume of shape `1 × 1 × 125` with
the masker disabled, at depth index 30. -/
theorem genpng_written_iff_witness :
    ("IXI" ++ "_" ++ pad3 30 ++ ".png",
        genpngSlice 1 1 125 (fun _ _ _ => 1) false (fun _ _ _ => 0) 30)
      ∈ genpngOutputs 1 1 125 (fun _ _ _ => 1) false (fun _ _ _ => 0) "IXI" ↔
    ∃ s, slice_min ≤ s ∧ s < slice_max ∧
      1 < canvasMax (genpngSlice 1 1 125 (fun _ _ _ => 1) false (fun _ _ _ => 0) s) ∧
      ("IXI" ++ "_" ++ pad3 30 ++ ".png",
          genpngSlice 1 1 125 (fun _ _ _ => 1) false (fun _ _ _ => 0) 30)
        = ("IXI" ++ "_" ++ pad3 s ++ ".png",
            genpngSlice 1 1 125 (fun _ _ _ => 1) false (fun _ _ _ => 0) s) :=
  genpng_written_iff 1 1 125 (fun _ _ _ => 1) false (fun _ _ _ => 0) "IXI"
    (by decide) _

/-- C10: with the undersample flag off, the per-slice transform of genpng
consumes no randomness: the per-volume output lists (written-or-skipped
decisions, names and pixel values) for two arbitrary random sources
coincide. -/
theorem genpng_deterministic_no_undersample (X Y D : ℕ) (v : ℕ → ℕ → ℕ → ℝ)
    (r1 r2 : ℕ → ℕ → ℕ → ℝ) (stem : String) :
    genpngOutputs X Y D v false r1 stem = genpngOutputs X Y D v false r2 stem := by
  have h : ∀ s, genpngSlice X Y D v false r1 s = genpngSlice X Y D v false r2 s := by
    intro s
    simp only [genpngSlice, Bool.false_eq_true, if_false]
  unfold genpngOutputs
  simp only [h]

end MRI
